import Mathlib

/-! # Verification of the Data_Ingestion PII pipeline

Shallow embedding of `src/ingestion/{crypto_utils,transformations,io_utils,job}.py`.

Modelling conventions:
* pandas DataFrames become lists of rows; a row is an association list from
  column name to cell value (`PValue`), with missing columns reading as NaN,
  exactly as `pd.json_normalize` materializes them;
* the third-party cryptographic primitives (Argon2's `ph.hash`, Fernet's
  `encrypt`, `hmac.new(...).hexdigest()`) are library code, not repository
  code, so they enter the embedding as opaque function parameters bundled in
  `Secrets`; their per-call randomness (salt, IV) is an explicit numeric
  argument drawn from a call counter;
* Python exceptions become `Except String`;
* the write performed by `DataFrame.to_csv(csv_path)` becomes an explicit
  trace of file operations on the store path, so that interrupted writes can
  be reasoned about.
-/

namespace Ingestion

/-- A pandas cell value: a string, a number, or NaN (missing data). -/
inductive PValue where
  | str (s : String)
  | num (n : Int)
  | nan
deriving DecidableEq

/-- A DataFrame row: a flat mapping from column name to cell value
(dotted-path keys such as `"name.first"`, as produced by `pd.json_normalize`). -/
abbrev Row := List (String × PValue)

/-- Reading a cell of a row; a column absent from the row reads as NaN,
as in a pandas frame whose column union was materialized over all rows. -/
def rowGet (r : Row) (c : String) : PValue := (r.lookup c).getD PValue.nan

/-- Worker for `drop_duplicates`: walk the rows in order, keeping a row
exactly when its key value has not been seen yet. -/
def dropDupGo {α β : Type} [DecidableEq β] (key : α → β) (seen : List β) :
    List α → List α
  | [] => []
  | x :: xs =>
    if key x ∈ seen then dropDupGo key seen xs
    else x :: dropDupGo key (key x :: seen) xs

/-- `df.drop_duplicates(subset=[key])` with pandas' default `keep="first"`
(io_utils.py line 32): keep the first row carrying each key value,
preserving the order of survivors. -/
def drop_duplicates {α β : Type} [DecidableEq β] (key : α → β)
    (l : List α) : List α :=
  dropDupGo key [] l

/-- The dedup key of io_utils.py line 32: the `"login.uuid"` column.
A row lacking the column yields `none` (pandas groups NaN keys together). -/
def uuidKey (r : Row) : Option PValue := r.lookup "login.uuid"

/-- The pure merge step of `upsert_random_users_csv` (io_utils.py lines 23-32):
concatenate the existing store (when the CSV exists) with the new rows,
existing first, then drop duplicate `login.uuid` values keeping the first
occurrence. -/
def upsertMerge (existing : Option (List Row)) (new_rows : List Row) : List Row :=
  let df_final := match existing with
    | some df_existing => df_existing ++ new_rows
    | none => new_rows
  drop_duplicates uuidKey df_final

section DropDuplicatesLemmas

variable {α β : Type} [DecidableEq β] (key : α → β)

theorem mem_of_mem_dropDupGo {y : α} :
    ∀ {l : List α} {seen : List β}, y ∈ dropDupGo key seen l → y ∈ l := by
  intro l
  induction l with
  | nil => intro seen h; exact absurd h (List.not_mem_nil y)
  | cons x xs ih =>
    intro seen h
    rw [dropDupGo] at h
    by_cases hx : key x ∈ seen
    · rw [if_pos hx] at h
      exact List.mem_cons_of_mem x (ih h)
    · rw [if_neg hx] at h
      rcases List.mem_cons.mp h with h | h
      · exact h ▸ List.mem_cons_self x xs
      · exact List.mem_cons_of_mem x (ih h)

theorem mem_of_mem_drop_duplicates {y : α} {l : List α}
    (h : y ∈ drop_duplicates key l) : y ∈ l :=
  mem_of_mem_dropDupGo key h

theorem key_mem_dropDupGo_iff {b : β} :
    ∀ {l : List α} {seen : List β},
      b ∈ (dropDupGo key seen l).map key ↔ b ∈ l.map key ∧ b ∉ seen := by
  intro l
  induction l with
  | nil => intro seen; simp [dropDupGo]
  | cons x xs ih =>
    intro seen
    rw [dropDupGo]
    by_cases hx : key x ∈ seen
    · rw [if_pos hx, ih]
      simp only [List.map_cons, List.mem_cons]
      constructor
      · rintro ⟨h1, h2⟩
        exact ⟨Or.inr h1, h2⟩
      · rintro ⟨h1 | h1, h2⟩
        · subst h1
          exact absurd hx h2
        · exact ⟨h1, h2⟩
    · rw [if_neg hx]
      simp only [List.map_cons, List.mem_cons, ih]
      constructor
      · rintro (rfl | ⟨h1, h2⟩)
        · exact ⟨Or.inl rfl, hx⟩
        · exact ⟨Or.inr h1, fun hs => h2 (Or.inr hs)⟩
      · rintro ⟨h1 | h1, h2⟩
        · exact Or.inl h1
        · by_cases hbx : b = key x
          · exact Or.inl hbx
          · exact Or.inr ⟨h1, fun hs => hs.elim hbx h2⟩

theorem key_mem_drop_duplicates_iff {b : β} :
    ∀ {l : List α}, b ∈ (drop_duplicates key l).map key ↔ b ∈ l.map key := by
  intro l
  unfold drop_duplicates
  rw [key_mem_dropDupGo_iff]
  simp

theorem dropDupGo_key_nodup :
    ∀ (l : List α) (seen : List β), ((dropDupGo key seen l).map key).Nodup := by
  intro l
  induction l with
  | nil => intro seen; simp [dropDupGo]
  | cons x xs ih =>
    intro seen
    rw [dropDupGo]
    by_cases hx : key x ∈ seen
    · rw [if_pos hx]
      exact ih seen
    · rw [if_neg hx]
      simp only [List.map_cons]
      refine List.nodup_cons.mpr ⟨?_, ih _⟩
      intro hmem
      exact ((key_mem_dropDupGo_iff key).mp hmem).2 (List.mem_cons_self _ _)

theorem drop_duplicates_key_nodup (l : List α) :
    ((drop_duplicates key l).map key).Nodup :=
  dropDupGo_key_nodup key l []

theorem dropDupGo_of_nodup :
    ∀ {l : List α} {seen : List β}, (l.map key).Nodup →
      (∀ b ∈ l.map key, b ∉ seen) → dropDupGo key seen l = l := by
  intro l
  induction l with
  | nil => intro seen _ _; rfl
  | cons x xs ih =>
    intro seen hnd hdisj
    rw [dropDupGo, if_neg (hdisj (key x) (by simp))]
    rw [List.map_cons] at hnd
    have hnd' := List.nodup_cons.mp hnd
    congr 1
    refine ih hnd'.2 ?_
    intro b hb hbs
    rcases List.mem_cons.mp hbs with h1 | h1
    · exact hnd'.1 (h1 ▸ hb)
    · exact hdisj b (List.mem_cons_of_mem _ hb) h1

theorem drop_duplicates_idem (l : List α) :
    drop_duplicates key (drop_duplicates key l) = drop_duplicates key l := by
  unfold drop_duplicates
  exact dropDupGo_of_nodup key (dropDupGo_key_nodup key l [])
    (fun b _ hb => absurd hb (List.not_mem_nil b))

theorem dropDupGo_all_seen :
    ∀ {l : List α} {seen : List β}, (∀ y ∈ l, key y ∈ seen) →
      dropDupGo key seen l = [] := by
  intro l
  induction l with
  | nil => intro seen _; rfl
  | cons x xs ih =>
    intro seen h
    rw [dropDupGo, if_pos (h x (List.mem_cons_self x xs))]
    exact ih (fun y hy => h y (List.mem_cons_of_mem x hy))

theorem dropDupGo_append_absorb :
    ∀ {l₁ : List α} {seen : List β} {l₂ : List α},
      (∀ y ∈ l₂, key y ∈ seen ∨ key y ∈ l₁.map key) →
      dropDupGo key seen (l₁ ++ l₂) = dropDupGo key seen l₁ := by
  intro l₁
  induction l₁ with
  | nil =>
    intro seen l₂ h
    have hall : ∀ y ∈ l₂, key y ∈ seen := by
      intro y hy
      rcases h y hy with h1 | h1
      · exact h1
      · exact absurd h1 (List.not_mem_nil _)
    rw [List.nil_append, dropDupGo_all_seen key hall]
    rfl
  | cons x xs ih =>
    intro seen l₂ h
    rw [List.cons_append, dropDupGo, dropDupGo]
    by_cases hx : key x ∈ seen
    · rw [if_pos hx, if_pos hx]
      apply ih
      intro y hy
      rcases h y hy with h1 | h1
      · exact Or.inl h1
      · rcases List.mem_cons.mp h1 with h2 | h2
        · exact Or.inl (h2 ▸ hx)
        · exact Or.inr h2
    · rw [if_neg hx, if_neg hx]
      congr 1
      apply ih
      intro y hy
      rcases h y hy with h1 | h1
      · exact Or.inl (List.mem_cons_of_mem _ h1)
      · rcases List.mem_cons.mp h1 with h2 | h2
        · exact Or.inl (h2 ▸ List.mem_cons_self _ _)
        · exact Or.inr h2

theorem drop_duplicates_append_subsumed (l₁ l₂ : List α)
    (h : ∀ y ∈ l₂, key y ∈ l₁.map key) :
    drop_duplicates key (l₁ ++ l₂) = drop_duplicates key l₁ :=
  dropDupGo_append_absorb key (fun y hy => Or.inr (h y hy))

end DropDuplicatesLemmas

/-- The two branches of io_utils.py lines 23-28 collapse to one equation:
merging is concatenation (existing store first, absent store contributing
nothing) followed by the keep-first dedup. -/
theorem upsertMerge_eq (existing : Option (List Row)) (new_rows : List Row) :
    upsertMerge existing new_rows
      = drop_duplicates uuidKey (existing.getD [] ++ new_rows) := by
  cases existing <;> simp [upsertMerge]

/-! ## The on-disk write, as a trace of file operations

`df_final.to_csv(csv_path, index=False)` (io_utils.py line 37) writes the
store file in place: the path is opened in write mode - truncating whatever
was there - and the serialized frame is then written.  There is no temporary
file and no rename in `upsert_random_users_csv`.  A `FileOp` trace makes the
intermediate on-disk states of that write sequence explicit. -/

/-- A primitive operation on the store file's contents. -/
inductive FileOp where
  | truncate
  | append (data : String)
deriving DecidableEq

/-- Effect of one file operation on the file's contents. -/
def applyOp (content : String) : FileOp → String
  | FileOp.truncate => ""
  | FileOp.append d => content ++ d

/-- Contents of the store file after a sequence of operations, starting from
`content`.  Evaluating `applyOps` on a proper initial segment of a trace gives
the on-disk state at an interruption point. -/
def applyOps (content : String) (ops : List FileOp) : String :=
  ops.foldl applyOp content

/-- The operations `to_csv` performs on the store path: open in write mode
(truncate), then write the serialized frame. -/
def toCsvOps (text : String) : List FileOp :=
  [FileOp.truncate, FileOp.append text]

/-- `upsert_random_users_csv` (io_utils.py lines 16-39) with its I/O made
explicit.  `readResult` models `csv_path.exists()` together with
`pd.read_csv(csv_path)`: `none` when the file is absent, `some (.error e)`
when the read raises, `some (.ok rows)` for a parsed store.  `ser` models
`DataFrame.to_csv` serialization.  On success it returns the merged frame
and the trace of file operations performed on the store path; a read failure
propagates the exception before any write is attempted. -/
def upsert_random_users_csv (readResult : Option (Except String (List Row)))
    (new_rows : List Row) (ser : List Row → String) :
    Except String (List Row × List FileOp) :=
  match readResult with
  | some (Except.error e) => Except.error e
  | some (Except.ok df_existing) =>
      let df_final := upsertMerge (some df_existing) new_rows
      Except.ok (df_final, toCsvOps (ser df_final))
  | none =>
      let df_final := upsertMerge none new_rows
      Except.ok (df_final, toCsvOps (ser df_final))

/-! ## crypto_utils.py - the Field Protector

The secrets (`PEPPER`, `FERNET_KEY`, `BLIND_INDEX_KEY`) are loaded from the
environment, and the primitives (`argon2.PasswordHasher.hash`,
`cryptography.fernet.Fernet.encrypt`, `hmac.new(..).hexdigest()`) are
third-party library code, not repository code; both therefore enter the
embedding as opaque parameters bundled in `Secrets`.  Argon2 draws a fresh
random salt per call and Fernet a fresh random IV per call, so those
primitives take an extra numeric argument standing for that per-call
randomness; the HMAC takes none - it is a pure keyed hash. -/

/-- The cryptographic secrets and primitives of crypto_utils.py. -/
structure Secrets where
  pepper : String
  argonHash : String → Nat → String
  fernetEnc : String → Nat → String
  hmacHex : String → String

/-- `hash_password` (crypto_utils.py line 78): append the pepper, then hash
with Argon2id under a fresh salt. -/
def hash_password (S : Secrets) (pw : String) (salt : Nat) : String :=
  S.argonHash (pw ++ S.pepper) salt

/-- `encrypt_str` (crypto_utils.py line 92): Fernet-encrypt under a fresh IV
(the `encode`/`decode` byte shuttling is lossless and elided). -/
def encrypt_str (S : Secrets) (s : String) (iv : Nat) : String :=
  S.fernetEnc s iv

/-- `normalize_email` (crypto_utils.py line 101): `s.strip().lower()` -
drop surrounding whitespace, then lowercase, spelled out on the character
list so that it evaluates inside the kernel. -/
def normalize_email (s : String) : String :=
  ⟨((s.data.dropWhile Char.isWhitespace).reverse.dropWhile
      Char.isWhitespace).reverse.map Char.toLower⟩

/-- `blind_index` (crypto_utils.py line 106): keyed HMAC-SHA256 hex digest
of the input (the key is baked into `hmacHex`); no internal normalization. -/
def blind_index (S : Secrets) (s : String) : String :=
  S.hmacHex s

/-! ## transformations.py - the Record Transformer

`transform_users` works on pandas frames.  A `Frame` is the column list plus
the rows; `pd.json_normalize` yields one row per input record with the
column union over all records, a record's missing columns reading as NaN. -/

/-- A pandas DataFrame: its columns and its rows. -/
structure Frame where
  cols : List String
  rows : List Row
deriving DecidableEq

/-- `pd.json_normalize(users)` (transformations.py line 26) on records given
in flattened dotted-key form: the columns are the union of the records' keys,
and each record is one row (a column absent from a record reads as NaN via
`rowGet`). -/
def json_normalize (users : List Row) : Frame :=
  ⟨(users.flatMap (fun u => u.map Prod.fst)).dedup, users⟩

/-- The column selection of transformations.py lines 30-44. -/
def selectedColumns : List String :=
  ["login.uuid", "name.first", "name.last", "email", "dob.date", "dob.age",
   "location.country", "location.street.name", "login.username",
   "login.password", "phone"]

/-- The four plaintext columns dropped at transformations.py lines 72-75. -/
def droppedColumns : List String :=
  ["login.password", "email", "phone", "location.street.name"]

/-- `df[[c, ...]].copy()`: raises `KeyError` unless every requested column is
present in the frame; otherwise materializes a new independent frame holding
exactly those columns. -/
def selectCols (f : Frame) (cs : List String) : Except String Frame :=
  if cs.all (fun c => f.cols.contains c) then
    Except.ok ⟨cs, f.rows.map (fun r => cs.map (fun c => (c, rowGet r c)))⟩
  else
    Except.error "KeyError"

/-- `Series.apply` over the rows, threading the per-row position so that
per-call randomness (Argon2 salt, Fernet IV) can be drawn; the first raising
cell aborts the whole operation, as a Python exception does. -/
def mapIdxM (g : Nat → Row → Except String Row) :
    Nat → List Row → Except String (List Row)
  | _, [] => Except.ok []
  | i, r :: rs => do
      let r' ← g i r
      let rs' ← mapIdxM g (i + 1) rs
      Except.ok (r' :: rs')

/-- `df.loc[:, dst] = v` on one row: overwrite `dst` if the row has it,
otherwise append the new column cell at the end. -/
def setCol (r : Row) (dst : String) (v : PValue) : Row :=
  if (r.map Prod.fst).contains dst then
    r.map (fun p => if p.1 = dst then (p.1, v) else p)
  else
    r ++ [(dst, v)]

/-- `df.loc[:, dst] = df[src].apply(g)` (transformations.py lines 56-60):
read the source column (KeyError when absent), apply the cell function to
every row, assign the results as column `dst`. -/
def applyCol (f : Frame) (src dst : String)
    (g : Nat → PValue → Except String PValue) : Except String Frame :=
  if f.cols.contains src then do
    let rows' ← mapIdxM (fun i r => do
        let v ← g i (rowGet r src)
        Except.ok (setCol r dst v)) 0 f.rows
    Except.ok ⟨if f.cols.contains dst then f.cols else f.cols ++ [dst], rows'⟩
  else
    Except.error "KeyError"

/-- `df.drop(columns=cs, inplace=True)` (transformations.py lines 72-75):
raises `KeyError` unless every listed column is present; otherwise removes
those columns from the frame and from every row. -/
def dropCols (f : Frame) (cs : List String) : Except String Frame :=
  if cs.all (fun c => f.cols.contains c) then
    Except.ok ⟨f.cols.filter (fun c => !cs.contains c),
      f.rows.map (fun r => r.filter (fun p => !cs.contains p.1))⟩
  else
    Except.error "KeyError"

/-- `hash_password` under `.apply`: on a string cell, Argon2id over
plaintext-plus-pepper with the call's fresh salt; on a NaN cell `pw + PEPPER`
raises (`float + str`), aborting the batch. -/
def hashPasswordCell (S : Secrets) (i : Nat) : PValue → Except String PValue
  | PValue.str pw => Except.ok (PValue.str (hash_password S pw i))
  | _ => Except.error "TypeError: can only concatenate str"

/-- `encrypt_str` under `.apply`: on a string cell, Fernet under the call's
fresh IV (`3 * i + tag` enumerates the distinct encrypting calls of one run);
on a NaN cell `s.encode()` raises (`float.encode`), aborting the batch. -/
def encryptCell (S : Secrets) (tag : Nat) (i : Nat) :
    PValue → Except String PValue
  | PValue.str s => Except.ok (PValue.str (encrypt_str S s (3 * i + tag)))
  | _ => Except.error "AttributeError: float has no attribute encode"

/-- The lambda of transformations.py line 60 under `.apply`:
`blind_index(normalize_email(s))`; draws no randomness.  On a NaN cell
`s.strip()` raises, aborting the batch. -/
def emailBidxCell (S : Secrets) (_i : Nat) : PValue → Except String PValue
  | PValue.str s => Except.ok (PValue.str (blind_index S (normalize_email s)))
  | _ => Except.error "AttributeError: float has no attribute strip"

/-- `transform_users` (transformations.py lines 20-78): flatten, select the
eleven source columns, derive the five protected columns, drop the four
plaintext sensitive columns, and return BOTH the raw flattened frame and the
secured frame. -/
def transform_users (S : Secrets) (users : List Row) :
    Except String (Frame × Frame) := do
  let df_raw := json_normalize users
  let df0 ← selectCols df_raw selectedColumns
  let df1 ← applyCol df0 "login.password" "password_hash" (hashPasswordCell S)
  let df2 ← applyCol df1 "email" "email_enc" (encryptCell S 0)
  let df3 ← applyCol df2 "phone" "phone_enc" (encryptCell S 1)
  let df4 ← applyCol df3 "location.street.name" "street_name_enc" (encryptCell S 2)
  let df5 ← applyCol df4 "email" "email_bidx" (emailBidxCell S)
  let df_secure ← dropCols df5 droppedColumns
  Except.ok (df_raw, df_secure)

/-! ## Concrete test fixtures -/

/-- Transparent stand-ins for the library primitives, used to evaluate the
pipeline on concrete data. -/
def testSecrets : Secrets where
  pepper := "+pep"
  argonHash := fun s n => "argon2id$" ++ toString n ++ "$" ++ s
  fernetEnc := fun s n => "gAAAA" ++ toString n ++ "$" ++ s
  hmacHex := fun s => "hmac$" ++ s

/-- A complete raw record. -/
def userAlice : Row :=
  [("login.uuid", PValue.str "u-1"),
   ("name.first", PValue.str "Alice"),
   ("name.last", PValue.str "Ank"),
   ("email", PValue.str "Alice@Example.com"),
   ("dob.date", PValue.str "1990-01-01"),
   ("dob.age", PValue.num 34),
   ("location.country", PValue.str "NL"),
   ("location.street.name", PValue.str "Main Street"),
   ("login.username", PValue.str "alice1"),
   ("login.password", PValue.str "hunter2"),
   ("phone", PValue.str "123-456")]

/-- A second complete raw record. -/
def userBob : Row :=
  [("login.uuid", PValue.str "u-2"),
   ("name.first", PValue.str "Bob"),
   ("name.last", PValue.str "Bee"),
   ("email", PValue.str "bob@example.com"),
   ("dob.date", PValue.str "1985-05-05"),
   ("dob.age", PValue.num 39),
   ("location.country", PValue.str "DE"),
   ("location.street.name", PValue.str "Side Road"),
   ("login.username", PValue.str "bob2"),
   ("login.password", PValue.str "swordfish"),
   ("phone", PValue.str "987-654")]

/-- A raw record whose password field is present but EMPTY. -/
def userEveEmptyPw : Row :=
  [("login.uuid", PValue.str "u-3"),
   ("name.first", PValue.str "Eve"),
   ("name.last", PValue.str "Eff"),
   ("email", PValue.str "eve@example.com"),
   ("dob.date", PValue.str "2000-12-12"),
   ("dob.age", PValue.num 23),
   ("location.country", PValue.str "FR"),
   ("location.street.name", PValue.str "Back Lane"),
   ("login.username", PValue.str "eve3"),
   ("login.password", PValue.str ""),
   ("phone", PValue.str "555-000")]

/-- A raw record with NO password field at all. -/
def userMallNoPw : Row :=
  [("login.uuid", PValue.str "u-4"),
   ("name.first", PValue.str "Mall"),
   ("name.last", PValue.str "Emm"),
   ("email", PValue.str "mall@example.com"),
   ("dob.date", PValue.str "1999-09-09"),
   ("dob.age", PValue.num 25),
   ("location.country", PValue.str "ES"),
   ("location.street.name", PValue.str "High Way"),
   ("login.username", PValue.str "mall4"),
   ("phone", PValue.str "111-222")]

/-- The end-to-end batch of the spec's scenario: three records, one with an
empty password. -/
def usersScenario : List Row := [userAlice, userBob, userEveEmptyPw]

/-! ## Row-level lemmas -/

theorem lookup_eq_none_of_keys_not_contains {c : String} :
    ∀ {r : Row}, (r.map Prod.fst).contains c = false → r.lookup c = none := by
  intro r
  induction r with
  | nil => intro _; rfl
  | cons p rest ih =>
    obtain ⟨k, w⟩ := p
    intro h
    simp only [List.map_cons, List.contains_cons, Bool.or_eq_false_iff,
      beq_eq_false_iff_ne, ne_eq] at h
    simp [List.lookup_cons, beq_false_of_ne h.1, ih h.2]

theorem lookup_replace_self {dst : String} {v : PValue} :
    ∀ {r : Row}, (r.map Prod.fst).contains dst = true →
      (r.map (fun p => if p.1 = dst then (p.1, v) else p)).lookup dst = some v := by
  intro r
  induction r with
  | nil => intro h; simp at h
  | cons p rest ih =>
    obtain ⟨k, w⟩ := p
    intro h
    by_cases hk : k = dst
    · subst hk
      simp [List.lookup_cons]
    · have h' : (rest.map Prod.fst).contains dst = true := by
        simp only [List.map_cons, List.contains_cons, Bool.or_eq_true,
          beq_iff_eq] at h
        rcases h with h1 | h1
        · exact absurd h1.symm hk
        · exact h1
      simpa [List.lookup_cons, hk, beq_false_of_ne (fun he => hk he.symm)]
        using ih h'

theorem lookup_replace_ne {dst c : String} {v : PValue} (h : c ≠ dst) :
    ∀ (r : Row),
      (r.map (fun p => if p.1 = dst then (p.1, v) else p)).lookup c = r.lookup c := by
  intro r
  induction r with
  | nil => rfl
  | cons p rest ih =>
    obtain ⟨k, w⟩ := p
    by_cases hk : k = dst
    · subst hk
      simp [List.lookup_cons, beq_false_of_ne h, ih]
    · by_cases hc : c = k
      · subst hc
        simp [List.lookup_cons, hk]
      · simp [List.lookup_cons, hk, beq_false_of_ne hc, ih]

theorem lookup_append_single_self {dst : String} {v : PValue} :
    ∀ {r : Row}, (r.map Prod.fst).contains dst = false →
      (r ++ [(dst, v)]).lookup dst = some v := by
  intro r
  induction r with
  | nil => intro _; simp [List.lookup_cons]
  | cons p rest ih =>
    obtain ⟨k, w⟩ := p
    intro h
    simp only [List.map_cons, List.contains_cons, Bool.or_eq_false_iff,
      beq_eq_false_iff_ne, ne_eq] at h
    simp [List.lookup_cons, beq_false_of_ne h.1, ih h.2]

theorem lookup_append_single_ne {dst c : String} {v : PValue} (h : c ≠ dst) :
    ∀ (r : Row), (r ++ [(dst, v)]).lookup c = r.lookup c := by
  intro r
  induction r with
  | nil => simp [List.lookup_cons, beq_false_of_ne h]
  | cons p rest ih =>
    obtain ⟨k, w⟩ := p
    by_cases hc : c = k
    · subst hc
      simp [List.lookup_cons]
    · simp [List.lookup_cons, beq_false_of_ne hc, ih]

theorem rowGet_setCol_self (r : Row) (dst : String) (v : PValue) :
    rowGet (setCol r dst v) dst = v := by
  unfold setCol
  by_cases hmem : (r.map Prod.fst).contains dst = true
  · rw [if_pos hmem]
    simp [rowGet, lookup_replace_self hmem]
  · rw [if_neg hmem]
    rw [Bool.not_eq_true] at hmem
    simp [rowGet, lookup_append_single_self hmem]

theorem rowGet_setCol_ne (r : Row) (dst c : String) (v : PValue) (h : c ≠ dst) :
    rowGet (setCol r dst v) c = rowGet r c := by
  unfold setCol
  by_cases hmem : (r.map Prod.fst).contains dst = true
  · rw [if_pos hmem]
    simp [rowGet, lookup_replace_ne h]
  · rw [if_neg hmem]
    simp [rowGet, lookup_append_single_ne h]

theorem lookup_filter_keys {cs : List String} {c : String}
    (h : cs.contains c = false) :
    ∀ (r : Row), (r.filter (fun p => !cs.contains p.1)).lookup c = r.lookup c := by
  intro r
  induction r with
  | nil => rfl
  | cons p rest ih =>
    obtain ⟨k, w⟩ := p
    by_cases hk : cs.contains k = true
    · have hne : c ≠ k := fun he => by rw [he] at h; rw [h] at hk; cases hk
      have hk' : k ∈ cs := by simpa using hk
      rw [List.filter_cons_of_neg (by simp [hk'])]
      rw [ih]
      simp [List.lookup_cons, beq_false_of_ne hne]
    · have hk' : k ∉ cs := by simpa using hk
      rw [List.filter_cons_of_pos (by simp [hk'])]
      by_cases hc : c = k
      · subst hc
        simp [List.lookup_cons]
      · simp only [List.lookup_cons, beq_false_of_ne hc]
        exact ih

theorem rowGet_filter_keys {cs : List String} (r : Row) (c : String)
    (h : cs.contains c = false) :
    rowGet (r.filter (fun p => !cs.contains p.1)) c = rowGet r c := by
  unfold rowGet
  rw [lookup_filter_keys h r]

theorem rowGet_projRow (u : Row) (cs : List String) (c : String) (h : c ∈ cs) :
    rowGet (cs.map (fun c' => (c', rowGet u c'))) c = rowGet u c := by
  unfold rowGet
  rw [List.lookup_graph (fun c' => (u.lookup c').getD PValue.nan) h]
  rfl

/-- Every cell of a `.loc` assignment's output row is an old cell or the
newly assigned one. -/
theorem mem_setCol {r : Row} {dst : String} {v : PValue} {kv : String × PValue}
    (h : kv ∈ setCol r dst v) : kv ∈ r ∨ kv = (dst, v) := by
  unfold setCol at h
  by_cases hmem : (r.map Prod.fst).contains dst = true
  · rw [if_pos hmem] at h
    rcases List.mem_map.mp h with ⟨p, hp, he⟩
    by_cases hd : p.1 = dst
    · right
      rw [← he]
      simp [hd]
    · left
      rw [← he]
      simpa [hd] using hp
  · rw [if_neg hmem] at h
    rcases List.mem_append.mp h with h1 | h1
    · exact Or.inl h1
    · exact Or.inr (by simpa using h1)

/-! ## Frame-operation lemmas -/

@[simp] theorem ok_bind {α β : Type} (a : α) (f : α → Except String β) :
    (Except.ok a >>= f) = f a := rfl

@[simp] theorem error_bind {α β : Type} (e : String) (f : α → Except String β) :
    ((Except.error e : Except String α) >>= f) = Except.error e := rfl

/-- Inversion for a successful `.apply` pass: every output row arises from
some input row by one assignment. -/
theorem mapIdxM_ok_mem {g : Nat → Row → Except String Row} :
    ∀ {l : List Row} {i : Nat} {l' : List Row}, mapIdxM g i l = Except.ok l' →
      ∀ r' ∈ l', ∃ j r, r ∈ l ∧ g j r = Except.ok r' := by
  intro l
  induction l with
  | nil =>
    intro i l' h r' hr'
    rw [mapIdxM] at h
    cases h
    simp at hr'
  | cons r rs ih =>
    intro i l' h r' hr'
    rw [mapIdxM] at h
    cases hg : g i r with
    | error e => rw [hg] at h; simp at h
    | ok a =>
      rw [hg] at h
      simp only [ok_bind] at h
      cases hrest : mapIdxM g (i + 1) rs with
      | error e => rw [hrest] at h; simp at h
      | ok as =>
        rw [hrest] at h
        simp only [ok_bind, Except.ok.injEq] at h
        subst h
        rcases List.mem_cons.mp hr' with h4 | h4
        · exact ⟨i, r, List.mem_cons_self r rs, h4 ▸ hg⟩
        · obtain ⟨j, r₀, hr₀, hg₀⟩ := ih hrest r' h4
          exact ⟨j, r₀, List.mem_cons_of_mem r hr₀, hg₀⟩

/-- A successful `.apply` pass preserves a pointwise relation between the
source records and the frame rows, one assignment at a time. -/
theorem mapIdxM_forall₂ {g : Nat → PValue → Except String PValue}
    {src dst : String} (P Q : Row → Row → Prop)
    (hstep : ∀ i u r, P u r →
      ∃ v, g i (rowGet r src) = Except.ok v ∧ Q u (setCol r dst v)) :
    ∀ {users rows : List Row}, List.Forall₂ P users rows → ∀ (i : Nat),
      ∃ rows', mapIdxM (fun i r => do
          let v ← g i (rowGet r src)
          Except.ok (setCol r dst v)) i rows = Except.ok rows'
        ∧ List.Forall₂ Q users rows' := by
  intro users rows hF
  induction hF with
  | nil => exact fun i => ⟨[], rfl, List.Forall₂.nil⟩
  | @cons u r us rs hP hrest ih =>
    intro i
    obtain ⟨v, hv, hQ⟩ := hstep i u r hP
    obtain ⟨rows', hrows', hQrest⟩ := ih (i + 1)
    refine ⟨setCol r dst v :: rows', ?_, List.Forall₂.cons hQ hQrest⟩
    rw [mapIdxM, hv]
    simp only [ok_bind, hrows']

/-- Success and shape of one column-assignment step, given a pointwise
invariant strong enough to make every cell application succeed. -/
theorem applyCol_forall₂_ok (g : Nat → PValue → Except String PValue)
    (src dst : String) (P Q : Row → Row → Prop)
    (hstep : ∀ i u r, P u r →
      ∃ v, g i (rowGet r src) = Except.ok v ∧ Q u (setCol r dst v))
    {f : Frame} {users : List Row}
    (hsrc : f.cols.contains src = true)
    (hF : List.Forall₂ P users f.rows) :
    ∃ f', applyCol f src dst g = Except.ok f'
      ∧ f'.cols = (if f.cols.contains dst then f.cols else f.cols ++ [dst])
      ∧ List.Forall₂ Q users f'.rows := by
  obtain ⟨rows', hrows', hQ⟩ := mapIdxM_forall₂ P Q hstep hF 0
  refine ⟨⟨if f.cols.contains dst then f.cols else f.cols ++ [dst], rows'⟩,
    ?_, rfl, hQ⟩
  unfold applyCol
  rw [if_pos hsrc, hrows']
  simp only [ok_bind]

/-- Inversion of a successful column-assignment step. -/
theorem applyCol_ok_inv {f : Frame} {src dst : String}
    {g : Nat → PValue → Except String PValue} {f' : Frame}
    (h : applyCol f src dst g = Except.ok f') :
    f.cols.contains src = true
    ∧ f'.cols = (if f.cols.contains dst then f.cols else f.cols ++ [dst])
    ∧ mapIdxM (fun i r => do
        let v ← g i (rowGet r src)
        Except.ok (setCol r dst v)) 0 f.rows = Except.ok f'.rows := by
  unfold applyCol at h
  by_cases hsrc : f.cols.contains src = true
  · rw [if_pos hsrc] at h
    cases hm : mapIdxM (fun i r => do
        let v ← g i (rowGet r src)
        Except.ok (setCol r dst v)) 0 f.rows with
    | error e => rw [hm] at h; simp at h
    | ok rows' =>
      rw [hm] at h
      simp only [ok_bind, Except.ok.injEq] at h
      subst h
      exact ⟨hsrc, rfl, rfl⟩
  · rw [if_neg hsrc] at h
    simp at h

/-- `selectCols` succeeds exactly when every requested column is present,
and then materializes the projection. -/
theorem selectCols_ok {f : Frame} {cs : List String}
    (h : cs.all (fun c => f.cols.contains c) = true) :
    selectCols f cs
      = Except.ok ⟨cs, f.rows.map (fun r => cs.map (fun c => (c, rowGet r c)))⟩ := by
  unfold selectCols
  rw [if_pos h]

/-- Inversion of a successful `selectCols`. -/
theorem selectCols_ok_inv {f : Frame} {cs : List String} {f' : Frame}
    (h : selectCols f cs = Except.ok f') :
    f'.cols = cs
    ∧ f'.rows = f.rows.map (fun r => cs.map (fun c => (c, rowGet r c))) := by
  unfold selectCols at h
  by_cases hc : cs.all (fun c => f.cols.contains c) = true
  · rw [if_pos hc] at h
    simp only [Except.ok.injEq] at h
    subst h
    exact ⟨rfl, rfl⟩
  · rw [if_neg hc] at h
    simp at h

/-- `dropCols` succeeds exactly when every listed column is present. -/
theorem dropCols_ok {f : Frame} {cs : List String}
    (h : cs.all (fun c => f.cols.contains c) = true) :
    dropCols f cs
      = Except.ok ⟨f.cols.filter (fun c => !cs.contains c),
          f.rows.map (fun r => r.filter (fun p => !cs.contains p.1))⟩ := by
  unfold dropCols
  rw [if_pos h]

/-- Inversion of a successful `dropCols`. -/
theorem dropCols_ok_inv {f : Frame} {cs : List String} {f' : Frame}
    (h : dropCols f cs = Except.ok f') :
    f'.cols = f.cols.filter (fun c => !cs.contains c)
    ∧ f'.rows = f.rows.map (fun r => r.filter (fun p => !cs.contains p.1)) := by
  unfold dropCols at h
  by_cases hc : cs.all (fun c => f.cols.contains c) = true
  · rw [if_pos hc] at h
    simp only [Except.ok.injEq] at h
    subst h
    exact ⟨rfl, rfl⟩
  · rw [if_neg hc] at h
    simp at h

/-! ## Claims C4, C5, C8 - merge semantics -/

/-- C4: merging concatenates existing-then-incoming and deduplicates by
`login.uuid` keeping the first occurrence, so a stored record wins over a
newly fetched record with the same id: for an existing store holding `X`
(id `a`) and an incoming batch `[Y, Z]` with `Y` sharing id `a` (`Y ≠ X`)
and `Z` carrying a different id `b`, the merged store is `[X, Z]` -
`X` kept, `Y` discarded, `Z` appended. -/
theorem C4_merge_keeps_first_occurrence (X Y Z : Row) (a b : PValue)
    (hX : uuidKey X = some a) (hY : uuidKey Y = some a) (hZ : uuidKey Z = some b)
    (_hYX : Y ≠ X) (hab : a ≠ b) :
    upsertMerge (some [X]) [Y, Z] = [X, Z] := by
  have hYXk : uuidKey Y = uuidKey X := by rw [hX, hY]
  have hZXk : uuidKey Z ≠ uuidKey X := by
    rw [hZ, hX]
    simpa using Ne.symm hab
  simp [upsertMerge, drop_duplicates, dropDupGo, hYXk, hZXk]

/-- Concrete instance of the C4 merge-ordering scenario. -/
def c4X : Row := [("login.uuid", PValue.str "A"), ("name.first", PValue.str "x")]

/-- Incoming record colliding with `c4X` on `login.uuid`. -/
def c4Y : Row := [("login.uuid", PValue.str "A"), ("name.first", PValue.str "y")]

/-- Incoming record with a fresh `login.uuid`. -/
def c4Z : Row := [("login.uuid", PValue.str "B"), ("name.first", PValue.str "z")]

/-- Witness: the C4 scenario evaluated at concrete records. -/
theorem C4_merge_keeps_first_occurrence_witness :
    upsertMerge (some [c4X]) [c4Y, c4Z] = [c4X, c4Z] :=
  C4_merge_keeps_first_occurrence c4X c4Y c4Z (PValue.str "A") (PValue.str "B")
    (by decide) (by decide) (by decide) (by decide) (by decide)

/-- C5: the merge is idempotent - merging a batch `B` into the result of
merging `B` into a store `S` yields exactly the store obtained by merging
`B` into `S` once (the keep-first dedup by `login.uuid` is stable). -/
theorem C5_merge_idempotent (S : Option (List Row)) (B : List Row) :
    upsertMerge (some (upsertMerge S B)) B = upsertMerge S B := by
  rw [upsertMerge_eq (some (upsertMerge S B)) B, upsertMerge_eq S B]
  simp only [Option.getD_some]
  have hsub : ∀ y ∈ B,
      uuidKey y ∈ (drop_duplicates uuidKey (S.getD [] ++ B)).map uuidKey := by
    intro y hy
    apply (key_mem_drop_duplicates_iff uuidKey).mpr
    rw [List.map_append]
    exact List.mem_append_right _ (List.mem_map_of_mem uuidKey hy)
  rw [drop_duplicates_append_subsumed uuidKey _ B hsub]
  exact drop_duplicates_idem uuidKey _

/-- C8: after every merge - in particular against an absent store, and for
incoming batches that repeat a `login.uuid` internally - the resulting store
has pairwise distinct `login.uuid` values: the merger's dedup step enforces
key uniqueness on every write. -/
theorem C8_store_ids_nodup (existing : Option (List Row)) (incoming : List Row) :
    ((upsertMerge existing incoming).map uuidKey).Nodup := by
  rw [upsertMerge_eq]
  exact drop_duplicates_key_nodup uuidKey _

/-! ## Claim C3 - (non-)atomicity of the store write -/

/-- Existing stored record for the C3 scenario. -/
def c3OldRow : Row := [("login.uuid", PValue.str "A")]

/-- Incoming record for the C3 scenario. -/
def c3NewRow : Row := [("login.uuid", PValue.str "B")]

/-- The run of `upsert_random_users_csv` in the C3 scenario: the store file
exists with contents `"old-store"` parsing to `[c3OldRow]`, one fresh record
arrives, and serialization yields `"new-store"`. -/
def c3Result : Except String (List Row × List FileOp) :=
  upsert_random_users_csv (some (Except.ok [c3OldRow])) [c3NewRow]
    (fun _ => "new-store")

/-- Merged frame of the C3 scenario run. -/
def c3Df : List Row :=
  match c3Result with
  | Except.ok p => p.1
  | Except.error _ => []

/-- File-operation trace of the C3 scenario run. -/
def c3Ops : List FileOp :=
  match c3Result with
  | Except.ok p => p.2
  | Except.error _ => []

/-- C3 counterexample: the merge write is not atomic.  In the concrete C3
scenario the trace of operations on the store path is truncate-then-write -
an in-place rewrite with no temporary file or rename - so stopping after the
first operation (a mid-write failure) leaves the store holding `""`, which is
neither the old complete store (`"old-store"`) nor the new complete store
(`"new-store"`): a partial write is observable, contradicting the claim. -/
theorem C3_counterexample :
    c3Ops = [FileOp.truncate, FileOp.append "new-store"]
      ∧ applyOps "old-store" (c3Ops.take 1) = ""
      ∧ ("" : String) ≠ "old-store"
      ∧ ("" : String) ≠ "new-store" := by
  refine ⟨rfl, rfl, ?_, ?_⟩ <;> decide

/-- C3 amended: the write is performed in place (truncate, then write the
serialized merged frame) rather than via write-to-temp-then-rename, so
atomicity under mid-write failure does not hold; what does hold is that a
run whose write trace completes leaves exactly the new complete store on
disk regardless of the prior contents, and that a read failure aborts the
merge with no file operation at all, leaving the prior store untouched. -/
theorem C3_amended_write_behaviour :
    (∀ (readResult : Option (Except String (List Row))) (new_rows : List Row)
        (ser : List Row → String) (df : List Row) (ops : List FileOp)
        (old : String),
        upsert_random_users_csv readResult new_rows ser = Except.ok (df, ops) →
        applyOps old ops = ser df)
    ∧ (∀ (e : String) (new_rows : List Row) (ser : List Row → String),
        upsert_random_users_csv (some (Except.error e)) new_rows ser
          = Except.error e) := by
  constructor
  · intro readResult new_rows ser df ops old h
    have hops : ops = toCsvOps (ser df) := by
      match readResult, h with
      | some (Except.ok df_existing), h =>
        simp only [upsert_random_users_csv, Except.ok.injEq, Prod.mk.injEq] at h
        rw [← h.1, ← h.2]
      | none, h =>
        simp only [upsert_random_users_csv, Except.ok.injEq, Prod.mk.injEq] at h
        rw [← h.1, ← h.2]
    rw [hops]
    simp [applyOps, toCsvOps, applyOp]
  · intro e new_rows ser
    rfl

/-- Witness: the amended C3 statement evaluated in the concrete scenario -
the completed write leaves `"new-store"`, and a failing read propagates the
exception untouched. -/
theorem C3_amended_write_behaviour_witness :
    applyOps "old-store" c3Ops = "new-store"
      ∧ upsert_random_users_csv (some (Except.error "io error")) [c3NewRow]
          (fun _ => "new-store") = Except.error "io error" :=
  ⟨C3_amended_write_behaviour.1 (some (Except.ok [c3OldRow])) [c3NewRow]
      (fun _ => "new-store") c3Df c3Ops "old-store" rfl,
    C3_amended_write_behaviour.2 "io error" [c3NewRow] (fun _ => "new-store")⟩

/-! ## Transformer inversions -/

/-- One `.apply` assignment on one row, inverted. -/
theorem applyStep_ok_inv {g : Nat → PValue → Except String PValue}
    {src dst : String} {j : Nat} {r r' : Row}
    (h : (do
        let v ← g j (rowGet r src)
        Except.ok (setCol r dst v)) = Except.ok r') :
    ∃ v, g j (rowGet r src) = Except.ok v ∧ r' = setCol r dst v := by
  cases hv : g j (rowGet r src) with
  | error e => rw [hv] at h; simp at h
  | ok v =>
    rw [hv] at h
    simp only [ok_bind, Except.ok.injEq] at h
    exact ⟨v, rfl, h.symm⟩

/-- A successful `transform_users` run decomposes into its seven stages, and
its first component is exactly the flattened raw frame. -/
theorem transform_users_ok_inv {S : Secrets} {users : List Row}
    {draw dsec : Frame}
    (h : transform_users S users = Except.ok (draw, dsec)) :
    draw = json_normalize users
    ∧ ∃ f0 f1 f2 f3 f4 f5,
        selectCols (json_normalize users) selectedColumns = Except.ok f0
        ∧ applyCol f0 "login.password" "password_hash" (hashPasswordCell S)
            = Except.ok f1
        ∧ applyCol f1 "email" "email_enc" (encryptCell S 0) = Except.ok f2
        ∧ applyCol f2 "phone" "phone_enc" (encryptCell S 1) = Except.ok f3
        ∧ applyCol f3 "location.street.name" "street_name_enc" (encryptCell S 2)
            = Except.ok f4
        ∧ applyCol f4 "email" "email_bidx" (emailBidxCell S) = Except.ok f5
        ∧ dropCols f5 droppedColumns = Except.ok dsec := by
  unfold transform_users at h
  simp only [] at h
  cases h0 : selectCols (json_normalize users) selectedColumns with
  | error e => rw [h0] at h; simp at h
  | ok f0 =>
  rw [h0] at h
  simp only [ok_bind] at h
  cases h1 : applyCol f0 "login.password" "password_hash" (hashPasswordCell S) with
  | error e => rw [h1] at h; simp at h
  | ok f1 =>
  rw [h1] at h
  simp only [ok_bind] at h
  cases h2 : applyCol f1 "email" "email_enc" (encryptCell S 0) with
  | error e => rw [h2] at h; simp at h
  | ok f2 =>
  rw [h2] at h
  simp only [ok_bind] at h
  cases h3 : applyCol f2 "phone" "phone_enc" (encryptCell S 1) with
  | error e => rw [h3] at h; simp at h
  | ok f3 =>
  rw [h3] at h
  simp only [ok_bind] at h
  cases h4 : applyCol f3 "location.street.name" "street_name_enc" (encryptCell S 2) with
  | error e => rw [h4] at h; simp at h
  | ok f4 =>
  rw [h4] at h
  simp only [ok_bind] at h
  cases h5 : applyCol f4 "email" "email_bidx" (emailBidxCell S) with
  | error e => rw [h5] at h; simp at h
  | ok f5 =>
  rw [h5] at h
  simp only [ok_bind] at h
  cases h6 : dropCols f5 droppedColumns with
  | error e => rw [h6] at h; simp at h
  | ok fsec =>
  rw [h6] at h
  simp only [ok_bind, Except.ok.injEq, Prod.mk.injEq] at h
  obtain ⟨hdraw, hdsec⟩ := h
  subst hdsec
  exact ⟨hdraw.symm, f0, f1, f2, f3, f4, f5, rfl, h1, h2, h3, h4, h5, h6⟩

/-- Inversion of a successful password-hash cell. -/
theorem hashPasswordCell_ok_inv {S : Secrets} {i : Nat} {v w : PValue}
    (h : hashPasswordCell S i v = Except.ok w) :
    ∃ pw, v = PValue.str pw ∧ w = PValue.str (S.argonHash (pw ++ S.pepper) i) := by
  cases v with
  | str pw =>
    simp only [hashPasswordCell, Except.ok.injEq] at h
    exact ⟨pw, rfl, h.symm⟩
  | num n => simp [hashPasswordCell] at h
  | nan => simp [hashPasswordCell] at h

/-- Inversion of a successful encryption cell. -/
theorem encryptCell_ok_inv {S : Secrets} {tag i : Nat} {v w : PValue}
    (h : encryptCell S tag i v = Except.ok w) :
    ∃ s, v = PValue.str s ∧ w = PValue.str (S.fernetEnc s (3 * i + tag)) := by
  cases v with
  | str s =>
    simp only [encryptCell, Except.ok.injEq] at h
    exact ⟨s, rfl, h.symm⟩
  | num n => simp [encryptCell] at h
  | nan => simp [encryptCell] at h

/-- Inversion of a successful blind-index cell. -/
theorem emailBidxCell_ok_inv {S : Secrets} {i : Nat} {v w : PValue}
    (h : emailBidxCell S i v = Except.ok w) :
    ∃ s, v = PValue.str s ∧ w = PValue.str (S.hmacHex (normalize_email s)) := by
  cases v with
  | str s =>
    simp only [emailBidxCell, Except.ok.injEq] at h
    exact ⟨s, rfl, h.symm⟩
  | num n => simp [emailBidxCell] at h
  | nan => simp [emailBidxCell] at h

/-! ## Claim C10 - empty batch -/

/-- C10: on an empty fetched batch the transformer does not return an empty
protected sequence - it raises.  `pd.json_normalize([])` yields a frame with
no columns at all, so the eleven-column selection fails with `KeyError`
regardless of the secrets in use. -/
theorem C10_empty_batch_fails (S : Secrets) :
    transform_users S [] = Except.error "KeyError" := rfl

/-! ## Claim C1 - plaintext in the transformer's returned value -/

/-- First returned component of the transformer on the scenario batch. -/
def scenarioDfRaw : Frame :=
  match transform_users testSecrets usersScenario with
  | Except.ok p => p.1
  | Except.error _ => ⟨[], []⟩

/-- Second returned component of the transformer on the scenario batch. -/
def scenarioDfSecure : Frame :=
  match transform_users testSecrets usersScenario with
  | Except.ok p => p.2
  | Except.error _ => ⟨[], []⟩

/-- C1 counterexample: the transformer's returned value DOES contain the four
plaintext sensitive values.  `transform_users` returns the pair
`(df_raw, df_secure)` (transformations.py line 78), and its first component -
the fully flattened raw frame - retains every input record verbatim: on the
scenario batch the raw frame's rows are the input records themselves,
including Alice's plaintext password, email, phone and street. -/
theorem C1_counterexample :
    scenarioDfRaw.rows = [userAlice, userBob, userEveEmptyPw]
    ∧ ("login.password", PValue.str "hunter2") ∈ userAlice
    ∧ ("email", PValue.str "Alice@Example.com") ∈ userAlice
    ∧ ("phone", PValue.str "123-456") ∈ userAlice
    ∧ ("location.street.name", PValue.str "Main Street") ∈ userAlice := by
  refine ⟨rfl, ?_, ?_, ?_, ?_⟩ <;> decide

/-- The shapes a protected-frame cell value can take when it is not a value
copied verbatim from a source record: an Argon2 hash, a Fernet ciphertext,
or an HMAC hex digest. -/
def PrimOut (S : Secrets) (v : PValue) : Prop :=
  (∃ s n, v = PValue.str (S.argonHash s n))
  ∨ (∃ s n, v = PValue.str (S.fernetEnc s n))
  ∨ (∃ s, v = PValue.str (S.hmacHex s))

/-- Provenance of one cell of the secured frame: either a cell copied
verbatim from one of the selected columns of some input record, or the
output of a protection primitive. -/
def cellProvenance (S : Secrets) (users : List Row) (kv : String × PValue) : Prop :=
  (kv.1 ∈ selectedColumns ∧ ∃ u ∈ users, kv.2 = rowGet u kv.1) ∨ PrimOut S kv.2

/-- One successful assignment step preserves rowwise cell provenance,
provided the assigned cells are primitive outputs. -/
theorem rowsProv_applyCol {S : Secrets} {users : List Row} {f f' : Frame}
    {src dst : String} {g : Nat → PValue → Except String PValue}
    (hg : ∀ i v w, g i v = Except.ok w → PrimOut S w)
    (h : applyCol f src dst g = Except.ok f')
    (hf : ∀ r ∈ f.rows, ∀ kv ∈ r, cellProvenance S users kv) :
    ∀ r' ∈ f'.rows, ∀ kv ∈ r', cellProvenance S users kv := by
  obtain ⟨-, -, hmap⟩ := applyCol_ok_inv h
  intro r' hr' kv hkv
  obtain ⟨j, r, hr, hstep⟩ := mapIdxM_ok_mem hmap r' hr'
  obtain ⟨v, hv, rfl⟩ := applyStep_ok_inv hstep
  rcases mem_setCol hkv with h1 | h1
  · exact hf r hr kv h1
  · subst h1
    exact Or.inr (hg j _ v hv)

/-- C1 amended: the plaintext retention is confined to the FIRST returned
component (the raw frame, exhibited by the counterexample); the SECOND
component `df_secure` is clean - none of the four plaintext sensitive
columns occurs among its columns or inside any of its rows, and every cell
it does hold is either a verbatim copy of a selected non-dropped source
field or the output of a protection primitive (Argon2 hash, Fernet
ciphertext, HMAC digest). -/
theorem C1_amended_secure_frame_clean (S : Secrets) (users : List Row)
    (draw dsec : Frame)
    (h : transform_users S users = Except.ok (draw, dsec)) :
    (∀ c ∈ dsec.cols, c ∉ droppedColumns)
    ∧ (∀ r ∈ dsec.rows, ∀ kv ∈ r,
        kv.1 ∉ droppedColumns ∧ cellProvenance S users kv) := by
  obtain ⟨-, f0, f1, f2, f3, f4, f5, h0, h1, h2, h3, h4, h5, h6⟩ :=
    transform_users_ok_inv h
  obtain ⟨hcols0, hrows0⟩ := selectCols_ok_inv h0
  have base : ∀ r ∈ f0.rows, ∀ kv ∈ r, cellProvenance S users kv := by
    intro r hr kv hkv
    rw [hrows0] at hr
    obtain ⟨u, hu, rfl⟩ := List.mem_map.mp hr
    obtain ⟨c, hc, rfl⟩ := List.mem_map.mp hkv
    exact Or.inl ⟨hc, u, hu, rfl⟩
  have prov1 := rowsProv_applyCol
    (fun i v w hw => by
      obtain ⟨pw, -, rfl⟩ := hashPasswordCell_ok_inv hw
      exact Or.inl ⟨pw ++ S.pepper, i, rfl⟩) h1 base
  have prov2 := rowsProv_applyCol
    (fun i v w hw => by
      obtain ⟨s, -, rfl⟩ := encryptCell_ok_inv hw
      exact Or.inr (Or.inl ⟨s, 3 * i + 0, rfl⟩)) h2 prov1
  have prov3 := rowsProv_applyCol
    (fun i v w hw => by
      obtain ⟨s, -, rfl⟩ := encryptCell_ok_inv hw
      exact Or.inr (Or.inl ⟨s, 3 * i + 1, rfl⟩)) h3 prov2
  have prov4 := rowsProv_applyCol
    (fun i v w hw => by
      obtain ⟨s, -, rfl⟩ := encryptCell_ok_inv hw
      exact Or.inr (Or.inl ⟨s, 3 * i + 2, rfl⟩)) h4 prov3
  have prov5 := rowsProv_applyCol
    (fun i v w hw => by
      obtain ⟨s, -, rfl⟩ := emailBidxCell_ok_inv hw
      exact Or.inr (Or.inr ⟨normalize_email s, rfl⟩)) h5 prov4
  obtain ⟨hcols6, hrows6⟩ := dropCols_ok_inv h6
  constructor
  · intro c hc
    rw [hcols6] at hc
    have := (List.mem_filter.mp hc).2
    simpa using this
  · intro r hr kv hkv
    rw [hrows6] at hr
    obtain ⟨r5, hr5, rfl⟩ := List.mem_map.mp hr
    have hmem := List.mem_filter.mp hkv
    refine ⟨by simpa using hmem.2, prov5 r5 hr5 kv hmem.1⟩

/-- Witness for the amended C1: on the concrete scenario run, none of the
four plaintext source columns survives into the secured frame's columns. -/
theorem C1_amended_secure_frame_clean_witness :
    "login.password" ∉ scenarioDfSecure.cols
    ∧ "email" ∉ scenarioDfSecure.cols
    ∧ "phone" ∉ scenarioDfSecure.cols
    ∧ "location.street.name" ∉ scenarioDfSecure.cols := by
  have h := C1_amended_secure_frame_clean testSecrets usersScenario
    scenarioDfRaw scenarioDfSecure rfl
  exact ⟨fun hm => absurd (show "login.password" ∈ droppedColumns by decide)
      (h.1 _ hm),
    fun hm => absurd (show "email" ∈ droppedColumns by decide) (h.1 _ hm),
    fun hm => absurd (show "phone" ∈ droppedColumns by decide) (h.1 _ hm),
    fun hm => absurd (show "location.street.name" ∈ droppedColumns by decide)
      (h.1 _ hm)⟩

/-! ## Claim C2 - what happens to incomplete records -/

/-- A raw record whose four sensitive cells are present and hold strings. -/
def sensitiveStr (u : Row) : Prop :=
  ∀ c ∈ droppedColumns, ∃ s, rowGet u c = PValue.str s

/-- Invariant carried through the assignment steps: the row's sensitive
cells still hold the source record's original string values. -/
def keepsSensitive (u r : Row) : Prop :=
  (∀ c ∈ droppedColumns, rowGet r c = rowGet u c) ∧ sensitiveStr u

theorem dropped_sub_selected : ∀ c ∈ droppedColumns, c ∈ selectedColumns := by
  decide

theorem contains_mono_applyCol {cols : List String} {dst c : String}
    (h : cols.contains c = true) :
    (if cols.contains dst then cols else cols ++ [dst]).contains c = true := by
  by_cases hd : cols.contains dst = true
  · rw [if_pos hd]; exact h
  · rw [if_neg hd]
    have hc : c ∈ cols := by simpa using h
    exact List.elem_eq_true_of_mem (List.mem_append_left _ hc)

theorem keepsSensitive_step (src dst : String)
    (g : Nat → PValue → Except String PValue)
    (hsrcd : src ∈ droppedColumns) (hdst : dst ∉ droppedColumns)
    (hgstr : ∀ i s, ∃ v, g i (PValue.str s) = Except.ok v) :
    ∀ (i : Nat) (u r : Row), keepsSensitive u r →
      ∃ v, g i (rowGet r src) = Except.ok v
        ∧ keepsSensitive u (setCol r dst v) := by
  intro i u r hk
  obtain ⟨hsame, hstr⟩ := hk
  obtain ⟨s, hs⟩ := hstr src hsrcd
  obtain ⟨v, hv⟩ := hgstr i s
  refine ⟨v, ?_, ?_, hstr⟩
  · rw [hsame src hsrcd, hs]
    exact hv
  · intro c hc
    rw [rowGet_setCol_ne r dst c v (fun he => hdst (he ▸ hc))]
    exact hsame c hc

/-- Success shape of the transformer: on a nonempty batch in which every
record carries all eleven source columns and string-valued sensitive cells,
the transform succeeds, protects EVERY record (no skipping), and the
`email_bidx` cell of each output row is the keyed digest of the record's
normalized email. -/
theorem transform_users_ok_shape (S : Secrets) (users : List Row)
    (hne : users ≠ [])
    (hkeys : ∀ u ∈ users, ∀ c ∈ selectedColumns, c ∈ u.map Prod.fst)
    (hstr : ∀ u ∈ users, sensitiveStr u) :
    ∃ dsec : Frame,
      transform_users S users = Except.ok (json_normalize users, dsec)
      ∧ dsec.rows.length = users.length
      ∧ List.Forall₂ (fun u r => ∀ s, rowGet u "email" = PValue.str s →
          rowGet r "email_bidx" = PValue.str (S.hmacHex (normalize_email s)))
          users dsec.rows := by
  have hsel : selectedColumns.all
      (fun c => (json_normalize users).cols.contains c) = true := by
    apply List.all_eq_true.mpr
    intro c hc
    obtain ⟨u, hu⟩ := List.exists_mem_of_ne_nil users hne
    apply List.elem_eq_true_of_mem
    apply List.mem_dedup.mpr
    exact List.mem_flatMap.mpr ⟨u, hu, hkeys u hu c hc⟩
  have h0 := selectCols_ok (f := json_normalize users) hsel
  set f0 : Frame := ⟨selectedColumns, (json_normalize users).rows.map
    (fun r => selectedColumns.map (fun c => (c, rowGet r c)))⟩ with hf0
  have base : List.Forall₂ keepsSensitive users f0.rows := by
    rw [hf0]
    show List.Forall₂ keepsSensitive users (users.map _)
    rw [List.forall₂_map_right_iff]
    apply List.forall₂_same.mpr
    intro u hu
    constructor
    · intro c hc
      exact rowGet_projRow u selectedColumns c (dropped_sub_selected c hc)
    · exact hstr u hu
  have hsup0 : ∀ c ∈ selectedColumns, f0.cols.contains c = true := by
    intro c hc
    exact List.elem_eq_true_of_mem hc
  obtain ⟨f1, h1, hcols1, F1⟩ := applyCol_forall₂_ok (hashPasswordCell S)
    "login.password" "password_hash" keepsSensitive keepsSensitive
    (keepsSensitive_step "login.password" "password_hash" (hashPasswordCell S)
      (by decide) (by decide) (fun i s => ⟨_, rfl⟩))
    (hsup0 "login.password" (by decide)) base
  have hsup1 : ∀ c ∈ selectedColumns, f1.cols.contains c = true := by
    intro c hc
    rw [hcols1]
    exact contains_mono_applyCol (hsup0 c hc)
  obtain ⟨f2, h2, hcols2, F2⟩ := applyCol_forall₂_ok (encryptCell S 0)
    "email" "email_enc" keepsSensitive keepsSensitive
    (keepsSensitive_step "email" "email_enc" (encryptCell S 0)
      (by decide) (by decide) (fun i s => ⟨_, rfl⟩))
    (hsup1 "email" (by decide)) F1
  have hsup2 : ∀ c ∈ selectedColumns, f2.cols.contains c = true := by
    intro c hc
    rw [hcols2]
    exact contains_mono_applyCol (hsup1 c hc)
  obtain ⟨f3, h3, hcols3, F3⟩ := applyCol_forall₂_ok (encryptCell S 1)
    "phone" "phone_enc" keepsSensitive keepsSensitive
    (keepsSensitive_step "phone" "phone_enc" (encryptCell S 1)
      (by decide) (by decide) (fun i s => ⟨_, rfl⟩))
    (hsup2 "phone" (by decide)) F2
  have hsup3 : ∀ c ∈ selectedColumns, f3.cols.contains c = true := by
    intro c hc
    rw [hcols3]
    exact contains_mono_applyCol (hsup2 c hc)
  obtain ⟨f4, h4, hcols4, F4⟩ := applyCol_forall₂_ok (encryptCell S 2)
    "location.street.name" "street_name_enc" keepsSensitive keepsSensitive
    (keepsSensitive_step "location.street.name" "street_name_enc"
      (encryptCell S 2) (by decide) (by decide) (fun i s => ⟨_, rfl⟩))
    (hsup3 "location.street.name" (by decide)) F3
  have hsup4 : ∀ c ∈ selectedColumns, f4.cols.contains c = true := by
    intro c hc
    rw [hcols4]
    exact contains_mono_applyCol (hsup3 c hc)
  obtain ⟨f5, h5, hcols5, F5⟩ := applyCol_forall₂_ok (emailBidxCell S)
    "email" "email_bidx" keepsSensitive
    (fun u r => ∀ s, rowGet u "email" = PValue.str s →
      rowGet r "email_bidx" = PValue.str (S.hmacHex (normalize_email s)))
    (by
      intro i u r hk
      obtain ⟨hsame, hstrU⟩ := hk
      obtain ⟨s, hs⟩ := hstrU "email" (by decide)
      refine ⟨PValue.str (S.hmacHex (normalize_email s)), ?_, ?_⟩
      · rw [hsame "email" (by decide), hs]
        rfl
      · intro s' hs'
        have hss : PValue.str s = PValue.str s' := hs.symm.trans hs'
        injection hss with hss'
        subst hss'
        rw [rowGet_setCol_self])
    (hsup4 "email" (by decide)) F4
  have hsup5 : ∀ c ∈ selectedColumns, f5.cols.contains c = true := by
    intro c hc
    rw [hcols5]
    exact contains_mono_applyCol (hsup4 c hc)
  have hdropcond : droppedColumns.all (fun c => f5.cols.contains c) = true := by
    apply List.all_eq_true.mpr
    intro c hc
    exact hsup5 c (dropped_sub_selected c hc)
  have h6 := dropCols_ok (f := f5) hdropcond
  have Ffinal : List.Forall₂ (fun u r => ∀ s, rowGet u "email" = PValue.str s →
      rowGet r "email_bidx" = PValue.str (S.hmacHex (normalize_email s)))
      users (f5.rows.map (fun r => r.filter (fun p => !droppedColumns.contains p.1))) := by
    rw [List.forall₂_map_right_iff]
    apply F5.imp
    intro u r hq s hs
    rw [rowGet_filter_keys r "email_bidx" (by decide)]
    exact hq s hs
  refine ⟨⟨f5.cols.filter (fun c => !droppedColumns.contains c),
      f5.rows.map (fun r => r.filter (fun p => !droppedColumns.contains p.1))⟩,
    ?_, Ffinal.length_eq.symm, Ffinal⟩
  unfold transform_users
  simp only []
  rw [h0]
  simp only [ok_bind]
  rw [h1]
  simp only [ok_bind]
  rw [h2]
  simp only [ok_bind]
  rw [h3]
  simp only [ok_bind]
  rw [h4]
  simp only [ok_bind]
  rw [h5]
  simp only [ok_bind]
  rw [h6]
  simp only [ok_bind]

/-- Number of secured rows the transformer yields on the three-record
scenario batch (one record with an EMPTY password). -/
def scenarioSecureRowCount : Nat :=
  match transform_users testSecrets usersScenario with
  | Except.ok p => p.2.rows.length
  | Except.error _ => 0

/-- C2 counterexample: on the spec's own scenario - a batch of three records,
one with an empty password - the transformer outputs THREE protected
records, not two: an empty password is a perfectly hashable string, and
nothing in `transform_users` skips a record.  The claimed per-record
skip-and-continue policy does not exist in the code. -/
theorem C2_counterexample :
    scenarioSecureRowCount = 3 ∧ scenarioSecureRowCount ≠ 2 := by
  constructor
  · rfl
  · decide

/-- C2 amended: the transformer has NO per-record failure handling.  When
every record carries the eleven source columns with string-valued sensitive
cells - including empty strings - every record is protected and the output
count equals the input count; and when a record lacks a sensitive value
(here: no password field while another record has one), the whole batch
transform fails with the cell-level TypeError - all-or-nothing, not
skip-and-continue. -/
theorem C2_amended_no_per_record_skip :
    (∀ (S : Secrets) (users : List Row), users ≠ [] →
      (∀ u ∈ users, ∀ c ∈ selectedColumns, c ∈ u.map Prod.fst) →
      (∀ u ∈ users, sensitiveStr u) →
      ∃ dsec : Frame,
        transform_users S users = Except.ok (json_normalize users, dsec)
        ∧ dsec.rows.length = users.length)
    ∧ transform_users testSecrets [userAlice, userMallNoPw]
        = Except.error "TypeError: can only concatenate str" := by
  constructor
  · intro S users hne hkeys hstr
    obtain ⟨dsec, htr, hlen, -⟩ := transform_users_ok_shape S users hne hkeys hstr
    exact ⟨dsec, htr, hlen⟩
  · rfl

/-- Witness: the amended C2 statement on the concrete scenario batch - all
three records, empty password included, are protected. -/
theorem C2_amended_no_per_record_skip_witness :
    scenarioSecureRowCount = 3 := by
  obtain ⟨dsec, htr, hlen⟩ := C2_amended_no_per_record_skip.1 testSecrets
    usersScenario (by decide) (by decide)
    (by
      intro u hu
      fin_cases hu <;> (intro c hc; fin_cases hc <;> exact ⟨_, rfl⟩))
  unfold scenarioSecureRowCount
  rw [htr]
  exact hlen

/-! ## Claim C6 - blind-index normalization congruence and determinism -/

/-- Two successful `.apply` passes over pointwise-related row lists produce
pointwise-related outputs. -/
theorem mapIdxM_parallel_inv {g₁ g₂ : Nat → Row → Except String Row}
    (R Q : Row → Row → Prop)
    (hstep : ∀ j r₁ r₂ r₁' r₂', R r₁ r₂ → g₁ j r₁ = Except.ok r₁' →
      g₂ j r₂ = Except.ok r₂' → Q r₁' r₂') :
    ∀ {l₁ l₂ : List Row}, List.Forall₂ R l₁ l₂ →
      ∀ {i : Nat} {l₁' l₂' : List Row},
      mapIdxM g₁ i l₁ = Except.ok l₁' → mapIdxM g₂ i l₂ = Except.ok l₂' →
      List.Forall₂ Q l₁' l₂' := by
  intro l₁ l₂ hR
  induction hR with
  | nil =>
    intro i l₁' l₂' h₁ h₂
    rw [mapIdxM] at h₁ h₂
    cases h₁
    cases h₂
    exact List.Forall₂.nil
  | @cons a b as bs hab hrest ih =>
    intro i l₁' l₂' h₁ h₂
    rw [mapIdxM] at h₁ h₂
    cases hg₁ : g₁ i a with
    | error e => rw [hg₁] at h₁; simp at h₁
    | ok a' =>
    rw [hg₁] at h₁
    simp only [ok_bind] at h₁
    cases hm₁ : mapIdxM g₁ (i + 1) as with
    | error e => rw [hm₁] at h₁; simp at h₁
    | ok as' =>
    rw [hm₁] at h₁
    simp only [ok_bind, Except.ok.injEq] at h₁
    subst h₁
    cases hg₂ : g₂ i b with
    | error e => rw [hg₂] at h₂; simp at h₂
    | ok b' =>
    rw [hg₂] at h₂
    simp only [ok_bind] at h₂
    cases hm₂ : mapIdxM g₂ (i + 1) bs with
    | error e => rw [hm₂] at h₂; simp at h₂
    | ok bs' =>
    rw [hm₂] at h₂
    simp only [ok_bind, Except.ok.injEq] at h₂
    subst h₂
    exact List.Forall₂.cons (hstep i a b a' b' hab hg₁ hg₂) (ih hm₁ hm₂)

/-- The frame-level form of the parallel-pass lemma. -/
theorem applyCol_parallel (g₁ g₂ : Nat → PValue → Except String PValue)
    (src dst : String) {f₁ f₂ f₁' f₂' : Frame}
    (R Q : Row → Row → Prop)
    (hstep : ∀ j r₁ r₂ v₁ v₂, R r₁ r₂ →
      g₁ j (rowGet r₁ src) = Except.ok v₁ →
      g₂ j (rowGet r₂ src) = Except.ok v₂ →
      Q (setCol r₁ dst v₁) (setCol r₂ dst v₂))
    (h₁ : applyCol f₁ src dst g₁ = Except.ok f₁')
    (h₂ : applyCol f₂ src dst g₂ = Except.ok f₂')
    (hR : List.Forall₂ R f₁.rows f₂.rows) :
    List.Forall₂ Q f₁'.rows f₂'.rows := by
  obtain ⟨-, -, hm₁⟩ := applyCol_ok_inv h₁
  obtain ⟨-, -, hm₂⟩ := applyCol_ok_inv h₂
  refine mapIdxM_parallel_inv R Q ?_ hR hm₁ hm₂
  intro j r₁ r₂ r₁' r₂' hr hs₁ hs₂
  obtain ⟨v₁, hv₁, rfl⟩ := applyStep_ok_inv hs₁
  obtain ⟨v₂, hv₂, rfl⟩ := applyStep_ok_inv hs₂
  exact hstep j r₁ r₂ v₁ v₂ hr hv₁ hv₂

/-- Pointwise-equal images give equal maps. -/
theorem map_eq_of_forall₂ {α β : Type} {f : α → β} :
    ∀ {l₁ l₂ : List α}, List.Forall₂ (fun a b => f a = f b) l₁ l₂ →
      l₁.map f = l₂.map f := by
  intro l₁ l₂ h
  induction h with
  | nil => rfl
  | cons hab _ ih => simp only [List.map_cons, hab, ih]

/-- Dropping the plaintext columns does not touch the `email_bidx` column. -/
theorem map_bidx_filter (rows : List Row) :
    (rows.map (fun r => r.filter (fun p => !droppedColumns.contains p.1))).map
        (fun r => rowGet r "email_bidx")
      = rows.map (fun r => rowGet r "email_bidx") := by
  induction rows with
  | nil => rfl
  | cons r rs ih =>
    simp only [List.map_cons]
    rw [rowGet_filter_keys r "email_bidx" (by decide), ih]

/-- C6: the blind index used by the pipeline is computed over the normalized
email (the lambda of transformations.py line 60), so any two inputs with the
same canonical form index identically; and the blind index is deterministic -
it consumes no randomness, so across two pipeline runs whose HMAC key agrees
(while pepper, Argon2 salts and Fernet IVs may all differ), the `email_bidx`
column of the secured output is identical. -/
theorem C6_blind_index_normalized_deterministic :
    (∀ (S : Secrets) (s₁ s₂ : String),
      normalize_email s₁ = normalize_email s₂ →
      blind_index S (normalize_email s₁) = blind_index S (normalize_email s₂))
    ∧ (∀ (S₁ S₂ : Secrets) (users : List Row) (p₁ p₂ : Frame × Frame),
        S₁.hmacHex = S₂.hmacHex →
        transform_users S₁ users = Except.ok p₁ →
        transform_users S₂ users = Except.ok p₂ →
        p₁.2.rows.map (fun r => rowGet r "email_bidx")
          = p₂.2.rows.map (fun r => rowGet r "email_bidx")) := by
  constructor
  · intro S s₁ s₂ h
    rw [h]
  · intro S₁ S₂ users p₁ p₂ hhmac ht₁ ht₂
    obtain ⟨draw₁, dsec₁⟩ := p₁
    obtain ⟨draw₂, dsec₂⟩ := p₂
    obtain ⟨-, f0₁, f1₁, f2₁, f3₁, f4₁, f5₁, h0₁, h1₁, h2₁, h3₁, h4₁, h5₁, h6₁⟩ :=
      transform_users_ok_inv ht₁
    obtain ⟨-, f0₂, f1₂, f2₂, f3₂, f4₂, f5₂, h0₂, h1₂, h2₂, h3₂, h4₂, h5₂, h6₂⟩ :=
      transform_users_ok_inv ht₂
    obtain ⟨-, hrows0₁⟩ := selectCols_ok_inv h0₁
    obtain ⟨-, hrows0₂⟩ := selectCols_ok_inv h0₂
    have base : List.Forall₂ (fun r₁ r₂ => rowGet r₁ "email" = rowGet r₂ "email")
        f0₁.rows f0₂.rows := by
      rw [hrows0₁, hrows0₂]
      apply List.forall₂_same.mpr
      intro r hr
      rfl
    have E1 := applyCol_parallel (hashPasswordCell S₁) (hashPasswordCell S₂)
      "login.password" "password_hash"
      (fun r₁ r₂ => rowGet r₁ "email" = rowGet r₂ "email")
      (fun r₁ r₂ => rowGet r₁ "email" = rowGet r₂ "email")
      (by
        intro j r₁ r₂ v₁ v₂ hr hv₁ hv₂
        rw [rowGet_setCol_ne r₁ "password_hash" "email" v₁ (by decide),
          rowGet_setCol_ne r₂ "password_hash" "email" v₂ (by decide)]
        exact hr)
      h1₁ h1₂ base
    have E2 := applyCol_parallel (encryptCell S₁ 0) (encryptCell S₂ 0)
      "email" "email_enc"
      (fun r₁ r₂ => rowGet r₁ "email" = rowGet r₂ "email")
      (fun r₁ r₂ => rowGet r₁ "email" = rowGet r₂ "email")
      (by
        intro j r₁ r₂ v₁ v₂ hr hv₁ hv₂
        rw [rowGet_setCol_ne r₁ "email_enc" "email" v₁ (by decide),
          rowGet_setCol_ne r₂ "email_enc" "email" v₂ (by decide)]
        exact hr)
      h2₁ h2₂ E1
    have E3 := applyCol_parallel (encryptCell S₁ 1) (encryptCell S₂ 1)
      "phone" "phone_enc"
      (fun r₁ r₂ => rowGet r₁ "email" = rowGet r₂ "email")
      (fun r₁ r₂ => rowGet r₁ "email" = rowGet r₂ "email")
      (by
        intro j r₁ r₂ v₁ v₂ hr hv₁ hv₂
        rw [rowGet_setCol_ne r₁ "phone_enc" "email" v₁ (by decide),
          rowGet_setCol_ne r₂ "phone_enc" "email" v₂ (by decide)]
        exact hr)
      h3₁ h3₂ E2
    have E4 := applyCol_parallel (encryptCell S₁ 2) (encryptCell S₂ 2)
      "location.street.name" "street_name_enc"
      (fun r₁ r₂ => rowGet r₁ "email" = rowGet r₂ "email")
      (fun r₁ r₂ => rowGet r₁ "email" = rowGet r₂ "email")
      (by
        intro j r₁ r₂ v₁ v₂ hr hv₁ hv₂
        rw [rowGet_setCol_ne r₁ "street_name_enc" "email" v₁ (by decide),
          rowGet_setCol_ne r₂ "street_name_enc" "email" v₂ (by decide)]
        exact hr)
      h4₁ h4₂ E3
    have B := applyCol_parallel (emailBidxCell S₁) (emailBidxCell S₂)
      "email" "email_bidx"
      (fun r₁ r₂ => rowGet r₁ "email" = rowGet r₂ "email")
      (fun r₁ r₂ => rowGet r₁ "email_bidx" = rowGet r₂ "email_bidx")
      (by
        intro j r₁ r₂ v₁ v₂ hr hv₁ hv₂
        obtain ⟨s₁, hs₁, rfl⟩ := emailBidxCell_ok_inv hv₁
        obtain ⟨s₂, hs₂, rfl⟩ := emailBidxCell_ok_inv hv₂
        rw [hs₁, hs₂] at hr
        injection hr with hss
        subst hss
        rw [rowGet_setCol_self, rowGet_setCol_self, hhmac])
      h5₁ h5₂ E4
    obtain ⟨-, hrows6₁⟩ := dropCols_ok_inv h6₁
    obtain ⟨-, hrows6₂⟩ := dropCols_ok_inv h6₂
    show dsec₁.rows.map _ = dsec₂.rows.map _
    rw [hrows6₁, hrows6₂, map_bidx_filter, map_bidx_filter]
    exact map_eq_of_forall₂ B

/-- A second set of secrets agreeing with `testSecrets` only on the HMAC. -/
def testSecretsAlt : Secrets where
  pepper := "#salt"
  argonHash := fun s n => "AH[" ++ toString n ++ "]" ++ s
  fernetEnc := fun s n => "FE[" ++ toString n ++ "]" ++ s
  hmacHex := fun s => "hmac$" ++ s

/-- First returned component of the alternative-secrets scenario run. -/
def scenarioDfRawAlt : Frame :=
  match transform_users testSecretsAlt usersScenario with
  | Except.ok p => p.1
  | Except.error _ => ⟨[], []⟩

/-- Second returned component of the alternative-secrets scenario run. -/
def scenarioDfSecureAlt : Frame :=
  match transform_users testSecretsAlt usersScenario with
  | Except.ok p => p.2
  | Except.error _ => ⟨[], []⟩

/-- Witness for C6: two spellings of the same canonical email index
identically, and the scenario batch run under two different peppers /
Argon2 salts / Fernet IVs but one HMAC key produces bitwise-identical
`email_bidx` columns. -/
theorem C6_blind_index_normalized_deterministic_witness :
    blind_index testSecrets (normalize_email "  ADMIN@Example.COM ")
      = blind_index testSecrets (normalize_email "admin@example.com")
    ∧ scenarioDfSecure.rows.map (fun r => rowGet r "email_bidx")
      = scenarioDfSecureAlt.rows.map (fun r => rowGet r "email_bidx") :=
  ⟨C6_blind_index_normalized_deterministic.1 testSecrets
      "  ADMIN@Example.COM " "admin@example.com" (by decide),
    C6_blind_index_normalized_deterministic.2 testSecrets testSecretsAlt
      usersScenario (scenarioDfRaw, scenarioDfSecure)
      (scenarioDfRawAlt, scenarioDfSecureAlt) rfl rfl rfl⟩

/-! ## job.py - the orchestrator, and claim C9 -/

/-- `run_ingestion_job` (job.py lines 18-96) with the external fetch made a
parameter: `users` and `status` model the payload and status code of the
completed `fetch_random_users` call (a fetch failure raises before this code
runs), `retriesInfo` models the `resp.raw.retries.total` attribute chain
with its `getattr` default of 0, `readResult` and `ser` model the store
medium exactly as in `upsert_random_users_csv`, and `base_dir` models
`BASE_DIR`.  On success it returns the metrics dict of job.py lines 73-79
together with the merged store and the write trace. -/
def run_ingestion_job (S : Secrets) (users : List Row) (status : Int)
    (retriesInfo : Option Int) (readResult : Option (Except String (List Row)))
    (ser : List Row → String) (base_dir : String) :
    Except String (List (String × PValue) × List Row × List FileOp) := do
  let (df_raw, df_secure) ← transform_users S users
  let (df_final, ops) ← upsert_random_users_csv readResult df_secure.rows ser
  let retries_total := retriesInfo.getD 0
  let csv_path := base_dir ++ "/data/random_users.csv"
  let metrics : List (String × PValue) :=
    [("http_status", PValue.num status),
     ("retries_used", PValue.num retries_total),
     ("rows_fetched", PValue.num (df_raw.rows.length : Int)),
     ("rows_after_dedup", PValue.num (df_final.length : Int)),
     ("csv_path", PValue.str csv_path)]
  Except.ok (metrics, df_final, ops)

/-- A concrete successful run: the scenario batch, HTTP 200, two retries
reported, no pre-existing store. -/
def c9Run : Except String (List (String × PValue) × List Row × List FileOp) :=
  run_ingestion_job testSecrets usersScenario 200 (some 2) none
    (fun _ => "store-v1") "Data_Ingestion"

/-- Whether the concrete run succeeded. -/
def c9RunOk : Bool :=
  match c9Run with
  | Except.ok _ => true
  | Except.error _ => false

/-- Metrics dict of the concrete run. -/
def c9Metrics : List (String × PValue) :=
  match c9Run with
  | Except.ok p => p.1
  | Except.error _ => []

/-- Merged store of the concrete run. -/
def c9Df : List Row :=
  match c9Run with
  | Except.ok p => p.2.1
  | Except.error _ => []

/-- Write trace of the concrete run. -/
def c9Ops : List FileOp :=
  match c9Run with
  | Except.ok p => p.2.2
  | Except.error _ => []

/-- C9 counterexample: the metrics mapping of a successful run does NOT
carry the keys `records_fetched`, `records_after_merge`, `store_location`
named by the claim - its keys are `http_status`, `retries_used`,
`rows_fetched`, `rows_after_dedup`, `csv_path` (job.py lines 73-79). -/
theorem C9_counterexample :
    c9RunOk = true
    ∧ c9Metrics.map Prod.fst = ["http_status", "retries_used", "rows_fetched",
        "rows_after_dedup", "csv_path"]
    ∧ c9Metrics.lookup "records_fetched" = none
    ∧ c9Metrics.lookup "records_after_merge" = none
    ∧ c9Metrics.lookup "store_location" = none :=
  ⟨rfl, rfl, rfl, rfl, rfl⟩

/-- C9 amended: every successful run returns a metrics mapping whose keys
are exactly `http_status`, `retries_used`, `rows_fetched`,
`rows_after_dedup`, `csv_path`, where `rows_fetched` equals the number of
raw records obtained from the fetch collaborator, `rows_after_dedup` equals
the number of records in the merged store, `csv_path` is the store
location, and the fetch metadata (`http_status`, `retries_used`) is
propagated. -/
theorem C9_amended_metrics (S : Secrets) (users : List Row) (status : Int)
    (retriesInfo : Option Int) (readResult : Option (Except String (List Row)))
    (ser : List Row → String) (base_dir : String)
    (m : List (String × PValue)) (df : List Row) (ops : List FileOp)
    (h : run_ingestion_job S users status retriesInfo readResult ser base_dir
      = Except.ok (m, df, ops)) :
    m.map Prod.fst = ["http_status", "retries_used", "rows_fetched",
      "rows_after_dedup", "csv_path"]
    ∧ m.lookup "http_status" = some (PValue.num status)
    ∧ m.lookup "retries_used" = some (PValue.num (retriesInfo.getD 0))
    ∧ m.lookup "rows_fetched" = some (PValue.num (users.length : Int))
    ∧ m.lookup "rows_after_dedup" = some (PValue.num (df.length : Int))
    ∧ m.lookup "csv_path"
        = some (PValue.str (base_dir ++ "/data/random_users.csv")) := by
  unfold run_ingestion_job at h
  cases ht : transform_users S users with
  | error e => rw [ht] at h; simp at h
  | ok p =>
  obtain ⟨draw, dsec⟩ := p
  rw [ht] at h
  simp only [ok_bind] at h
  cases hu : upsert_random_users_csv readResult dsec.rows ser with
  | error e => rw [hu] at h; simp at h
  | ok q =>
  obtain ⟨dff, ops'⟩ := q
  rw [hu] at h
  simp only [ok_bind, Except.ok.injEq, Prod.mk.injEq] at h
  obtain ⟨hm, hdf, hops⟩ := h
  subst hm
  subst hdf
  subst hops
  have hdraw := (transform_users_ok_inv ht).1
  subst hdraw
  exact ⟨rfl, rfl, rfl, rfl, rfl, rfl⟩

/-- Witness: the amended C9 statement on the concrete run - three records
fetched, three in the merged store, the store path propagated. -/
theorem C9_amended_metrics_witness :
    c9Metrics.lookup "rows_fetched" = some (PValue.num 3)
    ∧ c9Df.length = 3
    ∧ c9Metrics.lookup "rows_after_dedup"
        = some (PValue.num (c9Df.length : Int))
    ∧ c9Metrics.lookup "csv_path"
        = some (PValue.str "Data_Ingestion/data/random_users.csv")
    ∧ c9Metrics.lookup "http_status" = some (PValue.num 200)
    ∧ c9Metrics.lookup "retries_used" = some (PValue.num 2) := by
  have h := C9_amended_metrics testSecrets usersScenario 200 (some 2) none
    (fun _ => "store-v1") "Data_Ingestion" c9Metrics c9Df c9Ops rfl
  exact ⟨h.2.2.2.1, rfl, h.2.2.2.2.1, h.2.2.2.2.2, h.2.1, h.2.2.1⟩

/-! ## Claim C7 - encryption round trip

`encrypt_str` (crypto_utils.py line 92) wraps `Fernet.encrypt`, and NO
decryption code exists anywhere in the repository - decrypting is what a
consumer of the store would do with the same key.  Fernet lives in the
third-party `cryptography` package, so this section models it from the
spec ("AEAD / authenticated encryption", "encrypt(s) decrypts back to
exactly s under the same key", "fresh random nonce/IV per call"; the source
comment at crypto_utils.py line 88 names the construction "AES + HMAC").
Following Fernet's published layout, a token carries the IV, the
AES-128-CBC ciphertext of the PKCS7-padded message, and a MAC over IV and
ciphertext; the AES block cipher itself enters as an opaque invertible
pair - the only facts about it the round trip needs. -/

/-- Modelled from the spec: the AES-128 block cipher inside Fernet (library
code, absent from src/), reduced to the two facts the round trip relies on:
block decryption inverts block encryption, and blocks keep their 16-byte
size. -/
structure BlockCipher where
  encB : List Nat → List Nat
  decB : List Nat → List Nat
  dec_enc : ∀ b, decB (encB b) = b
  enc_len : ∀ b, b.length = 16 → (encB b).length = 16

/-- UTF-8 bytes of a Python string, the `s.encode()` of crypto_utils.py
line 92.  Equality of Python strings is equality of these byte lists. -/
def strBytes (s : String) : List Nat :=
  s.toUTF8.toList.map (fun b => b.toNat)

/-- Modelled from the spec: PKCS7 padding to 16-byte blocks, as Fernet
applies before CBC - append `k` copies of the byte `k`, `1 ≤ k ≤ 16`. -/
def pkcs7pad (m : List Nat) : List Nat :=
  m ++ List.replicate (16 - m.length % 16) (16 - m.length % 16)

/-- Modelled from the spec: PKCS7 unpadding - read the final byte `k`
(0 when the input is empty, which is then rejected), check that the last
`k` bytes all equal `k`, and drop them. -/
def pkcs7unpad (p : List Nat) : Option (List Nat) :=
  let k := p.getLast?.getD 0
  if k = 0 ∨ 16 < k ∨ p.length < k then none
  else if (p.drop (p.length - k)).all (fun b => b = k) then
    some (p.take (p.length - k))
  else none

/-- Bytewise XOR (CBC chaining). -/
def xorB (a b : List Nat) : List Nat :=
  List.zipWith Nat.xor a b

/-- Modelled from the spec: CBC encryption - each block is XORed with the
previous ciphertext block (initially the IV) before block encryption. -/
def cbcEnc (bc : BlockCipher) (prev : List Nat) :
    List (List Nat) → List (List Nat)
  | [] => []
  | b :: bs => bc.encB (xorB prev b) :: cbcEnc bc (bc.encB (xorB prev b)) bs

/-- Modelled from the spec: CBC decryption. -/
def cbcDec (bc : BlockCipher) (prev : List Nat) :
    List (List Nat) → List (List Nat)
  | [] => []
  | c :: cs => xorB prev (bc.decB c) :: cbcDec bc c cs

/-- Split a byte list into 16-byte blocks. -/
def chunks16 : List Nat → List (List Nat)
  | [] => []
  | x :: xs => (x :: xs).take 16 :: chunks16 ((x :: xs).drop 16)
termination_by l => l.length
decreasing_by
  simp only [List.length_drop, List.length_cons]
  omega

/-- Modelled from the spec: a Fernet token - IV, CBC ciphertext blocks, and
the authentication tag over both. -/
structure FernetToken where
  iv : List Nat
  ct : List (List Nat)
  tag : List Nat
deriving DecidableEq

/-- Modelled from the spec: `Fernet.encrypt` - pad, CBC-encrypt under the
fresh IV, authenticate. -/
def fernetEncrypt (bc : BlockCipher) (mac : List Nat → List (List Nat) → List Nat)
    (msg : List Nat) (iv : List Nat) : FernetToken :=
  ⟨iv, cbcEnc bc iv (chunks16 (pkcs7pad msg)),
    mac iv (cbcEnc bc iv (chunks16 (pkcs7pad msg)))⟩

/-- Modelled from the spec: `Fernet.decrypt` (absent from src/) - verify the
tag, CBC-decrypt, unpad. -/
def fernetDecrypt (bc : BlockCipher)
    (mac : List Nat → List (List Nat) → List Nat) (t : FernetToken) :
    Option (List Nat) :=
  if t.tag = mac t.iv t.ct then
    pkcs7unpad (cbcDec bc t.iv t.ct).flatten
  else none

/-- `encrypt_str` at the byte level: encode the string, Fernet-encrypt it
under the call's fresh IV (crypto_utils.py line 92). -/
def fernet_encrypt_str (bc : BlockCipher)
    (mac : List Nat → List (List Nat) → List Nat) (s : String)
    (iv : List Nat) : FernetToken :=
  fernetEncrypt bc mac (strBytes s) iv

theorem xorB_cancel : ∀ {p b : List Nat}, p.length = b.length →
    xorB p (xorB p b) = b := by
  intro p
  induction p with
  | nil =>
    intro b h
    cases b with
    | nil => rfl
    | cons x xs => simp at h
  | cons a as ih =>
    intro b h
    cases b with
    | nil => simp at h
    | cons x xs =>
      simp only [xorB, List.zipWith_cons_cons] at *
      have hx : Nat.xor a (Nat.xor a x) = x := by
        have hx' : a ^^^ (a ^^^ x) = x := by
          rw [← Nat.xor_assoc, Nat.xor_self, Nat.zero_xor]
        exact hx'
      have hlen : as.length = xs.length := by
        simpa using h
      rw [hx, ih hlen]

theorem cbcDec_cbcEnc (bc : BlockCipher) :
    ∀ (bs : List (List Nat)) (prev : List Nat), prev.length = 16 →
      (∀ b ∈ bs, b.length = 16) →
      cbcDec bc prev (cbcEnc bc prev bs) = bs := by
  intro bs
  induction bs with
  | nil => intro prev _ _; rfl
  | cons b bs ih =>
    intro prev hprev hlen
    rw [cbcEnc, cbcDec, bc.dec_enc]
    have hb : b.length = 16 := hlen b (List.mem_cons_self b bs)
    have hxor : (xorB prev b).length = 16 := by
      simp [xorB, List.length_zipWith, hprev, hb]
    rw [xorB_cancel (by rw [hprev, hb])]
    rw [ih (bc.encB (xorB prev b)) (bc.enc_len _ hxor)
      (fun x hx => hlen x (List.mem_cons_of_mem b hx))]

theorem getLast?_append_replicate (m : List Nat) (j x : Nat) :
    (m ++ List.replicate (j + 1) x).getLast? = some x := by
  rw [List.replicate_succ', ← List.append_assoc, List.getLast?_concat]

theorem pkcs7unpad_pad (m : List Nat) : pkcs7unpad (pkcs7pad m) = some m := by
  have hr : m.length % 16 < 16 := Nat.mod_lt _ (by omega)
  obtain ⟨j, hj⟩ : ∃ j, 16 - m.length % 16 = j + 1 :=
    ⟨16 - m.length % 16 - 1, by omega⟩
  unfold pkcs7pad pkcs7unpad
  rw [hj, getLast?_append_replicate]
  simp only [Option.getD_some]
  have hlenp : (m ++ List.replicate (j + 1) (j + 1)).length
      = m.length + (j + 1) := by
    simp [List.length_append, List.length_replicate]
  have hcond : ¬(j + 1 = 0 ∨ 16 < j + 1
      ∨ (m ++ List.replicate (j + 1) (j + 1)).length < j + 1) := by
    rw [hlenp]
    rintro (h | h | h) <;> omega
  rw [if_neg hcond]
  have hdroplen : (m ++ List.replicate (j + 1) (j + 1)).length - (j + 1)
      = m.length := by
    rw [hlenp]
    omega
  rw [hdroplen, List.drop_left, List.take_left]
  rw [if_pos ?_]
  apply List.all_eq_true.mpr
  intro b hb
  have hbk := List.eq_of_mem_replicate hb
  simp [hbk]

theorem pkcs7pad_len_mod (m : List Nat) : (pkcs7pad m).length % 16 = 0 := by
  unfold pkcs7pad
  simp only [List.length_append, List.length_replicate]
  omega

theorem flatten_chunks16 : ∀ l : List Nat, (chunks16 l).flatten = l := by
  intro l
  induction l using chunks16.induct with
  | case1 => simp [chunks16]
  | case2 x xs ih =>
    rw [chunks16]
    simp only [List.flatten_cons, ih, List.take_append_drop]

theorem chunks16_block_len : ∀ (l : List Nat), l.length % 16 = 0 →
    ∀ b ∈ chunks16 l, b.length = 16 := by
  intro l
  induction l using chunks16.induct with
  | case1 =>
    intro _ b hb
    rw [chunks16] at hb
    exact absurd hb (List.not_mem_nil b)
  | case2 x xs ih =>
    intro hmod b hb
    have hge : 16 ≤ (x :: xs).length := by
      simp only [List.length_cons] at hmod ⊢
      omega
    rw [chunks16] at hb
    rcases List.mem_cons.mp hb with h1 | h1
    · rw [h1, List.length_take]
      simp only [List.length_cons] at hge ⊢
      omega
    · refine ih ?_ b h1
      simp only [List.length_drop, List.length_cons] at hmod ⊢
      omega

/-- C7: the encryption round trip.  For every string `s` and fresh 16-byte
IV, decrypting `encrypt_str(s)` under the same key returns exactly `s`
(byte-for-byte: Python string equality is equality of the UTF-8 byte
lists).  This holds for every block cipher satisfying the AES contract and
every MAC; the proof carries the PKCS7 and CBC layers of the spec-modelled
Fernet and the repository's string-encoding wrapper. -/
theorem C7_encrypt_decrypt_roundtrip (bc : BlockCipher)
    (mac : List Nat → List (List Nat) → List Nat) (s : String)
    (iv : List Nat) (hiv : iv.length = 16) :
    fernetDecrypt bc mac (fernet_encrypt_str bc mac s iv)
      = some (strBytes s) := by
  unfold fernet_encrypt_str fernetEncrypt fernetDecrypt
  rw [if_pos rfl]
  rw [cbcDec_cbcEnc bc (chunks16 (pkcs7pad (strBytes s))) iv hiv
    (chunks16_block_len _ (pkcs7pad_len_mod _))]
  rw [flatten_chunks16, pkcs7unpad_pad]

/-- A concrete invertible block cipher: byte-list reversal. -/
def bcRev : BlockCipher where
  encB := List.reverse
  decB := List.reverse
  dec_enc := fun b => List.reverse_reverse b
  enc_len := fun b h => by simpa using h

/-- Witness: the C7 round trip at a concrete cipher, MAC, string and IV. -/
theorem C7_encrypt_decrypt_roundtrip_witness :
    (List.replicate 16 0).length = 16
    ∧ fernetDecrypt bcRev (fun _ _ => [])
        (fernet_encrypt_str bcRev (fun _ _ => []) "hi" (List.replicate 16 0))
      = some (strBytes "hi") :=
  ⟨by decide, C7_encrypt_decrypt_roundtrip bcRev (fun _ _ => []) "hi"
    (List.replicate 16 0) (by decide)⟩

end Ingestion
